import Mathlib

set_option maxHeartbeats 1000000

/-!
Verification of the configuration subsystem of `packages/cli/config.ts`:
a shallow embedding of the JavaScript values the pipeline observes, the
structural validator `isValidConfig`, the load pipeline `readConfigFile`,
the scaffolding templater `templateQuartzFolder`, and the POSIX path
functions behind `getQuartzPath` and `getConfigFilePath`.
-/

/-- A JavaScript value, as far as the configuration pipeline observes it.
`vobj` carries a flag recording whether the object inherits from
`Object.prototype` (`false` for `Object.create(null)`), which decides
whether `.hasOwnProperty` can be called on it. -/
inductive JVal where
  | vnull
  | vundefined
  | vbool (b : Bool)
  | vnum (n : Int)
  | vstr (s : String)
  | varr (elems : List JVal)
  | vobj (proto : Bool) (fields : List (String × JVal))

/-- A runtime fault escaping the validator (a thrown `TypeError`). -/
inductive Fault where
  | typeError
deriving DecidableEq

/-- The diagnostic outcome of `isValidConfig`: `valid` corresponds to the
function returning `true`; the other constructors record which warning the
source logs just before returning `false`. -/
inductive Diag where
  | valid
  | missingKey (k : String)
  | missingComponent (k : String)
  | schemaError (msg : String)
deriving DecidableEq

/-- Decimal value of a list of digit characters. -/
def digitsVal (l : List Char) : Nat :=
  l.foldl (fun n c => n * 10 + (c.toNat - 48)) 0

/-- Whether a string is a canonical array-index property name ("0", "7", "42", ...). -/
def isCanonicalIndex : List Char → Bool
  | [] => false
  | [c] => c.isDigit
  | c :: cs => c.isDigit && c != '0' && cs.all Char.isDigit

/-- Own properties of a JS string or array of length `len`:
`length` and the canonical indices below `len`. -/
def strOwn (k : String) (len : Nat) : Bool :=
  k == "length" || (isCanonicalIndex k.data && decide (digitsVal k.data < len))

/-- `v.hasOwnProperty(k)`. `.error .typeError` models the TypeError raised
when `v` is `null`/`undefined` or does not inherit `hasOwnProperty`;
primitives are boxed and answer normally. -/
def hasOwnJ : JVal → String → Except Fault Bool
  | .vnull, _ => .error .typeError
  | .vundefined, _ => .error .typeError
  | .vbool _, _ => .ok false
  | .vnum _, _ => .ok false
  | .vstr s, k => .ok (strOwn k s.length)
  | .varr l, k => .ok (strOwn k l.length)
  | .vobj proto fields, k =>
      if proto then .ok (fields.any (fun p => p.1 == k)) else .error .typeError

/-- Property read `v[k]` on the values this pipeline reads it from
(only ever used on plain objects; elsewhere it yields `undefined`). -/
def getField : JVal → String → JVal
  | .vobj _ fields, k => ((fields.find? (fun p => p.1 == k)).map Prod.snd).getD .vundefined
  | _, _ => .vundefined

/-- Is the value a JS string? -/
def isStr : JVal → Bool
  | .vstr _ => true
  | _ => false

/-- Is the value an array whose elements are all strings? -/
def isStrArr : JVal → Bool
  | .varr l => l.all isStr
  | _ => false

/-- Modelled from the spec: the `myzod` library implementing
`configSchema.try` is not part of this repository; per the spec the schema
declared as `{ quartzVersion: string, name: string, ignorePatterns: array of
string }` requires at least these three fields, correctly typed, with extra
fields permitted; a required field absent or wrong-typed yields a
`SchemaValidationError` message, and no error otherwise. -/
def configSchemaTry (v : JVal) : Option String :=
  if !isStr (getField v "quartzVersion") then
    some "expected quartzVersion to be a string"
  else if !isStr (getField v "name") then
    some "expected name to be a string"
  else if !isStrArr (getField v "ignorePatterns") then
    some "expected ignorePatterns to be an array of strings"
  else none

/-- The `requiredKeys` list of `isValidConfig`. -/
def requiredKeys : List String := ["plugins", "configuration", "components"]

/-- The `requiredComponents` list of `isValidConfig`. -/
def requiredComponents : List String := ["pageSingle", "pageList", "pageHome", "document"]

/-- The `for (const key of keys) if (!v.hasOwnProperty(key)) return false`
loops of `isValidConfig`: `.ok none` means every key is an own property,
`.ok (some k)` names the first missing key, `.error` propagates a thrown
TypeError. -/
def checkKeys (v : JVal) : List String → Except Fault (Option String)
  | [] => .ok none
  | k :: rest =>
    match hasOwnJ v k with
    | .error f => .error f
    | .ok true => checkKeys v rest
    | .ok false => .ok (some k)

/-- `isValidConfig` from the source: top-level required keys first, then the
four required component slots of `cfg.components`, then the schema check on
`cfg.configuration`; the first violation is reported and the rest are not
examined. -/
def isValidConfig (cfg : JVal) : Except Fault Diag :=
  match checkKeys cfg requiredKeys with
  | .error f => .error f
  | .ok (some k) => .ok (.missingKey k)
  | .ok none =>
    match checkKeys (getField cfg "components") requiredComponents with
    | .error f => .error f
    | .ok (some k) => .ok (.missingComponent k)
    | .ok none =>
      match configSchemaTry (getField cfg "configuration") with
      | some msg => .ok (.schemaError msg)
      | none => .ok .valid

/-- The environment `readConfigFile` runs against: `configExists` is
`fs.existsSync` at the config file path, `compileResult` the outcome of
`esbuild.build` (the bundled text, or the toolchain diagnostic),
`loadModule` the default export obtained by `requireFromString` on the
bundled text, and `toolVersion` the running tool's `version` from
`package.json`. -/
structure LoadEnv where
  configExists : Bool
  compileResult : Except String String
  loadModule : String → JVal
  toolVersion : String

/-- Observable pipeline steps, used to state that the compiler/loader are
not invoked on the missing-file path. -/
inductive PipelineEvent where
  | compileCall
  | loadCall
deriving DecidableEq

/-- The failure modes of `readConfigFile`; each `console.error` +
`process.exit(1)` site of the source is modelled as the corresponding
tagged error value. -/
inductive ReadErr where
  | missingConfig
  | compileError (msg : String)
  | invalidConfig (d : Diag)
  | validatorFault (f : Fault)

/-- Result of one `readConfigFile` call: the returned configuration or the
exit reason, the version-mismatch warning (naming config version and tool
version) if one was printed, and the trace of compile/load invocations. -/
structure ReadOutcome where
  result : Except ReadErr JVal
  versionWarning : Option (String × String)
  events : List PipelineEvent

/-- The string carried by a JS string value (used for the `!==` version
comparison, which runs after validation has proved the field a string). -/
def strVal : JVal → String
  | .vstr s => s
  | _ => ""

/-- `readConfigFile` from the source: existence check, then esbuild, then
`requireFromString(...).default`, then `isValidConfig`, then the non-fatal
version comparison against the tool version. -/
def readConfigFile (env : LoadEnv) : ReadOutcome :=
  match env.configExists with
  | false => ⟨.error .missingConfig, none, []⟩
  | true =>
    match env.compileResult with
    | .error e => ⟨.error (.compileError e), none, [.compileCall]⟩
    | .ok modText =>
      let cfg := env.loadModule modText
      match isValidConfig cfg with
      | .error f => ⟨.error (.validatorFault f), none, [.compileCall, .loadCall]⟩
      | .ok .valid =>
        let cfgVersion := strVal (getField (getField cfg "configuration") "quartzVersion")
        ⟨.ok cfg,
         if cfgVersion ≠ env.toolVersion then some (cfgVersion, env.toolVersion) else none,
         [.compileCall, .loadCall]⟩
      | .ok d => ⟨.error (.invalidConfig d), none, [.compileCall, .loadCall]⟩

/-- Boolean prefix test on character lists. -/
def isPfx : List Char → List Char → Bool
  | [], _ => true
  | _ :: _, [] => false
  | a :: ta, b :: tb => a == b && isPfx ta tb

/-- ECMAScript `GetSubstitution` applied to the replacement string of
`String.prototype.replace` with a *string* search pattern: `$$` inserts
`$`, `$&` inserts the matched text, `$` followed by a backtick (code 96)
inserts the text before the match, `$` followed by an apostrophe (code 39)
inserts the text after the match.  A string pattern has no capture groups
and no named captures, so `$0`…`$99` and `$<` are passed through verbatim,
which the fall-through case implements (the consumed reference text equals
the emitted text, and no reference can start inside it). -/
def getSubstitution (matched strBefore strAfter : List Char) : List Char → List Char
  | [] => []
  | [c] => [c]
  | c :: d :: rest =>
    if c = '$' then
      if d = '$' then '$' :: getSubstitution matched strBefore strAfter rest
      else if d = '&' then matched ++ getSubstitution matched strBefore strAfter rest
      else if d = Char.ofNat 96 then strBefore ++ getSubstitution matched strBefore strAfter rest
      else if d = Char.ofNat 39 then strAfter ++ getSubstitution matched strBefore strAfter rest
      else c :: getSubstitution matched strBefore strAfter (d :: rest)
    else c :: getSubstitution matched strBefore strAfter (d :: rest)

/-- Index of the first (least) position at which `pat` matches in the
text, as `String.prototype.indexOf` finds it; `none` when `pat` does not
occur. -/
def firstMatch (pat : List Char) : List Char → Option Nat
  | [] => if isPfx pat [] then some 0 else none
  | c :: cs =>
    if isPfx pat (c :: cs) then some 0
    else (firstMatch pat cs).map (fun i => i + 1)

/-- `s.replace(pat, rep)` with a string pattern: find the first occurrence
of `pat`; if there is none return `s` unchanged, otherwise splice in
`GetSubstitution(pat, s, i, [], undefined, rep)` between the text before
and after the match — the match is the literal `pat`, the surrounding
texts are the prefix before position `i` and the suffix after the match. -/
def replaceFirstL (s pat rep : List Char) : List Char :=
  match firstMatch pat s with
  | none => s
  | some i =>
      s.take i
        ++ getSubstitution pat (s.take i) (s.drop (i + pat.length)) rep
        ++ s.drop (i + pat.length)

/-- String-level wrapper for `s.replace(pat, rep)`. -/
def replaceFirst (s pat rep : String) : String :=
  ⟨replaceFirstL s.data pat.data rep.data⟩

/-- The literal placeholder token `\x7b\x7bk\x7d\x7d` for seed key `k`. -/
def tokenOf (k : String) : String := "\x7b\x7b" ++ k ++ "\x7d\x7d"

/-- The substitution loop of `templateQuartzFolder` on the copied config
file's text: one `s = s.replace(...)` pass per seed entry, in
`Object.entries` (insertion) order; the surrounding directory copy and the
file read/write are filesystem effects outside the model. -/
def templateQuartzFolder (seed : List (String × String)) (text : String) : String :=
  seed.foldl (fun s kv => replaceFirst s (tokenOf kv.1) kv.2) text

/-!
POSIX model of Node's `path.join` and `path.resolve` (the `path` library is
not part of this repository; modelled from its documented POSIX behaviour,
ignoring the trailing-slash cosmetics that `resolve` strips anyway).
`cwd` stands for `process.cwd()`, an absolute path in Node.
-/

/-- `p.charAt(0) === '/'`. -/
def isAbsL : List Char → Bool
  | [] => false
  | c :: _ => c == '/'

/-- Split a character list at every `'/'` (segments may be empty). -/
def splitSlash : List Char → List (List Char)
  | [] => [[]]
  | c :: cs =>
    if c = '/' then [] :: splitSlash cs
    else
      match splitSlash cs with
      | [] => [[c]]
      | s :: rest => (c :: s) :: rest

/-- The nonempty segments of a path string's characters. -/
def segsL (l : List Char) : List (List Char) :=
  (splitSlash l).filter (fun s => s ≠ [])

/-- One step of Node's `normalizeString`: skip `"."`, let `".."` pop the
previous segment (or survive at the front of a relative path), push
everything else.  The accumulator is the reversed output. -/
def normStep (allowAboveRoot : Bool) (acc : List (List Char)) (s : List Char) : List (List Char) :=
  if s = ['.'] then acc
  else if s = ['.', '.'] then
    match acc with
    | [] => if allowAboveRoot then [s] else []
    | a :: rest => if a = ['.', '.'] then (if allowAboveRoot then s :: acc else rest) else rest
  else s :: acc

/-- Node's `normalizeString` on a segment list: resolve `"."` and `".."`,
keeping leading `".."` only when `allowAboveRoot` (i.e. for relative paths). -/
def normSegs (allowAboveRoot : Bool) (l : List (List Char)) : List (List Char) :=
  (l.foldl (normStep allowAboveRoot) []).reverse

/-- Intercalate `'/'` between segments. -/
def sepJoinL : List (List Char) → List Char
  | [] => []
  | [s] => s
  | s :: t :: rest => s ++ '/' :: sepJoinL (t :: rest)

/-- Node's `path.normalize` (POSIX): empty becomes `"."`; otherwise
normalize the segments, keeping the absolute prefix. -/
def pathNormalize (p : String) : String :=
  if p = "" then "."
  else
    let abs := isAbsL p.data
    let m := normSegs (!abs) (segsL p.data)
    if abs then ⟨'/' :: sepJoinL m⟩
    else if m = [] then "." else ⟨sepJoinL m⟩

/-- Intercalate `"/"` between the (already filtered, nonempty) arguments,
as Node's `path.join` accumulates them. -/
def sepJoinStr : List String → String
  | [] => ""
  | [s] => s
  | s :: t :: rest => s ++ "/" ++ sepJoinStr (t :: rest)

/-- Node's `path.join` (POSIX): drop empty arguments, join the rest with
`'/'`, normalize; with no nonempty argument the result is `"."`. -/
def pathJoin (parts : List String) : String :=
  let ps := parts.filter (fun p => decide (p ≠ ""))
  if ps = [] then "." else pathNormalize (sepJoinStr ps)

/-- A well-formed path segment: nonempty and free of separators. -/
def SegOK (s : List Char) : Prop := s ≠ [] ∧ '/' ∉ s

/-- Node's `path.resolve cwd p` (POSIX, one argument beyond the implicit
`process.cwd()`): prefix `cwd` unless `p` is absolute, then normalize to an
absolute path with no `".."` escaping the root. -/
def pathResolve (cwd p : String) : String :=
  let full := if isAbsL p.data then p else cwd ++ "/" ++ p
  ⟨'/' :: sepJoinL (normSegs false (segsL full.data))⟩

/-- `QUARTZ` from the source. -/
def QUARTZ : String := "quartz"

/-- `QUARTZ_CONFIG_NAME` from the source. -/
def QUARTZ_CONFIG_NAME : String := "quartz.config.js"

/-- `getQuartzPath` from the source: `path.resolve(path.join(directory, QUARTZ))`. -/
def getQuartzPath (cwd directory : String) : String :=
  pathResolve cwd (pathJoin [directory, QUARTZ])

/-- `getConfigFilePath` from the source:
`path.resolve(path.join(directory, QUARTZ, QUARTZ_CONFIG_NAME))`. -/
def getConfigFilePath (cwd directory : String) : String :=
  pathResolve cwd (pathJoin [directory, QUARTZ, QUARTZ_CONFIG_NAME])

/-- A well-formed sample candidate configuration (used to instantiate the
universally quantified theorems at a concrete input). -/
def sampleCfg : JVal :=
  .vobj true
    [("plugins", .varr []),
     ("configuration", .vobj true
        [("quartzVersion", .vstr "3.9.0"),
         ("name", .vstr "My Site"),
         ("ignorePatterns", .varr [])]),
     ("components", .vobj true
        [("pageSingle", .vnum 0), ("pageList", .vnum 1),
         ("pageHome", .vnum 2), ("document", .vnum 3)])]

/-- A sample environment whose module loads `sampleCfg` and whose tool
version disagrees with the configuration's `quartzVersion`. -/
def sampleEnv : LoadEnv :=
  ⟨true, .ok "bundled", fun _ => sampleCfg, "4.0.0"⟩

/-- A sample environment with no configuration file present. -/
def missingEnv : LoadEnv :=
  ⟨false, .ok "bundled", fun _ => sampleCfg, "4.0.0"⟩

/-- A sample environment whose tool version matches the configuration's
declared `quartzVersion`. -/
def equalEnv : LoadEnv :=
  ⟨true, .ok "bundled", fun _ => sampleCfg, "3.9.0"⟩

/-- The full structural contract of a validated configuration object: the
three top-level keys, the four component slots, and the configuration
schema. -/
def ValidConfigShape (cfg : JVal) : Prop :=
  (∀ k ∈ requiredKeys, hasOwnJ cfg k = .ok true) ∧
  (∀ k ∈ requiredComponents, hasOwnJ (getField cfg "components") k = .ok true) ∧
  configSchemaTry (getField cfg "configuration") = none

/-- Values on which `.hasOwnProperty(...)` can be called without raising a
TypeError. -/
def supportsOwnLookup : JVal → Bool
  | .vnull => false
  | .vundefined => false
  | .vobj proto _ => proto
  | _ => true

/-! Helper lemmas about the validator. -/

lemma strMk_data (s : String) : (⟨s.data⟩ : String) = s := by
  cases s
  rfl

lemma checkKeys_ok_none {v : JVal} :
    ∀ {ks : List String}, checkKeys v ks = .ok none → ∀ k ∈ ks, hasOwnJ v k = .ok true := by
  intro ks
  induction ks with
  | nil => simp
  | cons k rest ih =>
    intro h k2 hk2
    cases hw : hasOwnJ v k with
    | error f => simp [checkKeys, hw] at h
    | ok b =>
      cases b with
      | false => simp [checkKeys, hw] at h
      | true =>
        simp only [checkKeys, hw] at h
        rcases List.mem_cons.mp hk2 with h1 | h2
        · subst h1; exact hw
        · exact ih h k2 h2

lemma isValidConfig_valid_elim {cfg : JVal} (h : isValidConfig cfg = .ok .valid) :
    checkKeys cfg requiredKeys = .ok none ∧
    checkKeys (getField cfg "components") requiredComponents = .ok none ∧
    configSchemaTry (getField cfg "configuration") = none := by
  unfold isValidConfig at h
  cases h1 : checkKeys cfg requiredKeys with
  | error f => rw [h1] at h; simp at h
  | ok o1 =>
    cases o1 with
    | some k => rw [h1] at h; simp at h
    | none =>
      rw [h1] at h
      cases h2 : checkKeys (getField cfg "components") requiredComponents with
      | error f => rw [h2] at h; simp at h
      | ok o2 =>
        cases o2 with
        | some k => rw [h2] at h; simp at h
        | none =>
          rw [h2] at h
          cases h3 : configSchemaTry (getField cfg "configuration") with
          | some m => rw [h3] at h; simp at h
          | none => exact ⟨rfl, rfl, rfl⟩


lemma configSchemaTry_none_iff (v : JVal) :
    configSchemaTry v = none ↔
      (isStr (getField v "quartzVersion") = true ∧ isStr (getField v "name") = true ∧
       isStrArr (getField v "ignorePatterns") = true) := by
  unfold configSchemaTry
  by_cases h1 : isStr (getField v "quartzVersion") = true <;>
    by_cases h2 : isStr (getField v "name") = true <;>
      by_cases h3 : isStrArr (getField v "ignorePatterns") = true <;>
        simp [h1, h2, h3]

lemma hasOwnJ_total {v : JVal} (h : supportsOwnLookup v = true) (k : String) :
    ∃ b, hasOwnJ v k = .ok b := by
  cases v with
  | vnull => exact Bool.noConfusion h
  | vundefined => exact Bool.noConfusion h
  | vbool b => exact ⟨false, rfl⟩
  | vnum n => exact ⟨false, rfl⟩
  | vstr s => exact ⟨_, rfl⟩
  | varr l => exact ⟨_, rfl⟩
  | vobj proto fields =>
    cases proto with
    | false => exact Bool.noConfusion h
    | true => exact ⟨_, rfl⟩

lemma checkKeys_total {v : JVal} (h : supportsOwnLookup v = true) :
    ∀ ks : List String, ∃ r, checkKeys v ks = .ok r := by
  intro ks
  induction ks with
  | nil => exact ⟨none, rfl⟩
  | cons k rest ih =>
    obtain ⟨b, hb⟩ := hasOwnJ_total h k
    cases b with
    | false => exact ⟨some k, by simp [checkKeys, hb]⟩
    | true =>
      obtain ⟨r, hr⟩ := ih
      exact ⟨r, by simp [checkKeys, hb, hr]⟩

/-- C1: whenever `readConfigFile` returns a configuration object rather
than failing, that object has the top-level keys `plugins`, `configuration`
and `components`, its `components` has all of `pageSingle`, `pageList`,
`pageHome`, `document`, and its `configuration` satisfies the declared
schema; no partially validated object is ever returned to the caller. -/
theorem readConfigFile_returns_valid_shape (env : LoadEnv) (cfg : JVal)
    (h : (readConfigFile env).result = .ok cfg) : ValidConfigShape cfg := by
  cases env with
  | mk b cr lm tv =>
    cases b with
    | false => simp [readConfigFile] at h
    | true =>
      cases cr with
      | error e => simp [readConfigFile] at h
      | ok txt =>
        cases hv : isValidConfig (lm txt) with
        | error f => simp [readConfigFile, hv] at h
        | ok d =>
          cases d with
          | valid =>
            simp only [readConfigFile, hv] at h
            have hcfg : lm txt = cfg := by
              simpa using h
            subst hcfg
            obtain ⟨h1, h2, h3⟩ := isValidConfig_valid_elim hv
            exact ⟨fun k hk => checkKeys_ok_none h1 k hk,
                   fun k hk => checkKeys_ok_none h2 k hk, h3⟩
          | missingKey k => simp [readConfigFile, hv] at h
          | missingComponent k => simp [readConfigFile, hv] at h
          | schemaError m => simp [readConfigFile, hv] at h

theorem readConfigFile_returns_valid_shape_witness : ValidConfigShape sampleCfg :=
  readConfigFile_returns_valid_shape sampleEnv sampleCfg (by rfl)

/-- C3: when the configuration file does not exist, `readConfigFile` fails
with `MissingConfigError` and neither the module compiler nor the module
loader is invoked (the event trace is empty). -/
theorem readConfigFile_missing_config (env : LoadEnv)
    (h : env.configExists = false) :
    readConfigFile env = ⟨.error .missingConfig, none, []⟩ := by
  cases env with
  | mk b cr lm tv =>
    cases b with
    | false => rfl
    | true => exact Bool.noConfusion h

theorem readConfigFile_missing_config_witness :
    readConfigFile missingEnv = ⟨.error .missingConfig, none, []⟩ :=
  readConfigFile_missing_config missingEnv rfl

/-- C4: the validator checks in a fixed short-circuiting order and reports
only the first violation with its specific kind: a candidate missing the
top-level key `plugins` yields `MissingKeyError(plugins)` no matter what
else is wrong, and a candidate with all top-level keys whose `components`
has `pageSingle` and `pageList` but not `pageHome` yields
`MissingComponentError(pageHome)` — not a generic failure — regardless of
the `document` slot and of the `configuration` schema. -/
theorem isValidConfig_first_violation :
    (∀ cfg : JVal, hasOwnJ cfg "plugins" = .ok false →
        isValidConfig cfg = .ok (.missingKey "plugins")) ∧
    (∀ cfg : JVal,
        hasOwnJ cfg "plugins" = .ok true →
        hasOwnJ cfg "configuration" = .ok true →
        hasOwnJ cfg "components" = .ok true →
        hasOwnJ (getField cfg "components") "pageSingle" = .ok true →
        hasOwnJ (getField cfg "components") "pageList" = .ok true →
        hasOwnJ (getField cfg "components") "pageHome" = .ok false →
        isValidConfig cfg = .ok (.missingComponent "pageHome")) := by
  constructor
  · intro cfg h
    simp [isValidConfig, requiredKeys, checkKeys, h]
  · intro cfg h1 h2 h3 h4 h5 h6
    simp [isValidConfig, requiredKeys, requiredComponents, checkKeys, h1, h2, h3, h4, h5, h6]

theorem isValidConfig_first_violation_witness :
    isValidConfig (.vobj true []) = .ok (.missingKey "plugins") ∧
    isValidConfig (.vobj true
      [("plugins", .vnull), ("configuration", .vnull),
       ("components", .vobj true [("pageSingle", .vnull), ("pageList", .vnull)])])
      = .ok (.missingComponent "pageHome") :=
  ⟨isValidConfig_first_violation.1 _ rfl,
   isValidConfig_first_violation.2 _ rfl rfl rfl rfl rfl rfl⟩

/-- C5: a candidate (with the structural checks passing) whose
`configuration.ignorePatterns` is a single string fails with
`SchemaValidationError`, while one whose `configuration` is fully
well-typed with an empty `ignorePatterns` sequence passes validation. -/
theorem isValidConfig_ignorePatterns :
    (∀ cfg : JVal,
        checkKeys cfg requiredKeys = .ok none →
        checkKeys (getField cfg "components") requiredComponents = .ok none →
        isStr (getField (getField cfg "configuration") "ignorePatterns") = true →
        ∃ msg, isValidConfig cfg = .ok (.schemaError msg)) ∧
    (∀ cfg : JVal,
        checkKeys cfg requiredKeys = .ok none →
        checkKeys (getField cfg "components") requiredComponents = .ok none →
        isStr (getField (getField cfg "configuration") "quartzVersion") = true →
        isStr (getField (getField cfg "configuration") "name") = true →
        getField (getField cfg "configuration") "ignorePatterns" = .varr [] →
        isValidConfig cfg = .ok .valid) := by
  constructor
  · intro cfg hk hc hstr
    cases hs : configSchemaTry (getField cfg "configuration") with
    | some msg => exact ⟨msg, by simp [isValidConfig, hk, hc, hs]⟩
    | none =>
      exfalso
      obtain ⟨_, _, h3⟩ := (configSchemaTry_none_iff _).mp hs
      cases hv : getField (getField cfg "configuration") "ignorePatterns" <;>
        rw [hv] at hstr h3 <;> simp [isStr, isStrArr] at hstr h3
  · intro cfg hk hc h1 h2 h3
    have hs : configSchemaTry (getField cfg "configuration") = none := by
      rw [configSchemaTry_none_iff]
      exact ⟨h1, h2, by rw [h3]; rfl⟩
    simp [isValidConfig, hk, hc, hs]

theorem isValidConfig_ignorePatterns_witness :
    (∃ msg, isValidConfig (.vobj true
       [("plugins", .varr []),
        ("configuration", .vobj true
           [("quartzVersion", .vstr "4.0.0"), ("name", .vstr "n"),
            ("ignorePatterns", .vstr "private")]),
        ("components", .vobj true
           [("pageSingle", .vnull), ("pageList", .vnull),
            ("pageHome", .vnull), ("document", .vnull)])])
       = .ok (.schemaError msg)) ∧
    isValidConfig sampleCfg = .ok .valid :=
  ⟨isValidConfig_ignorePatterns.1 _ rfl rfl rfl,
   isValidConfig_ignorePatterns.2 sampleCfg rfl rfl rfl rfl rfl⟩

/-- C6: a `configuration` sub-object carrying `quartzVersion` (string),
`name` (string) and `ignorePatterns` (sequence of strings), correctly
typed, passes the schema check — and the whole validation — even when it
carries arbitrary additional fields beyond these three. -/
theorem configSchema_allows_extra_fields
    (extra : List (String × JVal)) (qv nm : String) (pats : List String)
    (pv cs1 cs2 cs3 cs4 : JVal) :
    isValidConfig (.vobj true
      [("plugins", pv),
       ("configuration", .vobj true
          ([("quartzVersion", .vstr qv), ("name", .vstr nm),
            ("ignorePatterns", .varr (pats.map JVal.vstr))] ++ extra)),
       ("components", .vobj true
          [("pageSingle", cs1), ("pageList", cs2), ("pageHome", cs3), ("document", cs4)])])
      = .ok .valid := by
  have hall : isStrArr (.varr (pats.map JVal.vstr)) = true := by
    simp only [isStrArr, List.all_eq_true]
    intro x hx
    obtain ⟨p, _, rfl⟩ := List.mem_map.mp hx
    rfl
  simp [isValidConfig, requiredKeys, requiredComponents, checkKeys, hasOwnJ, getField,
        configSchemaTry, isStr, hall]

/-- C7: after validation succeeds, the pipeline compares the declared
`configuration.quartzVersion` with the running tool's version by plain
string inequality: it always returns the validated configuration, emits a
warning naming both versions exactly when they differ, and emits none when
they are equal — the check never fails the pipeline. -/
theorem readConfigFile_version_warning (env : LoadEnv) (modText : String)
    (hex : env.configExists = true)
    (hc : env.compileResult = .ok modText)
    (hv : isValidConfig (env.loadModule modText) = .ok .valid) :
    (readConfigFile env).result = .ok (env.loadModule modText) ∧
    (readConfigFile env).versionWarning =
      (if strVal (getField (getField (env.loadModule modText) "configuration") "quartzVersion")
          ≠ env.toolVersion
       then some (strVal (getField (getField (env.loadModule modText) "configuration") "quartzVersion"),
                  env.toolVersion)
       else none) := by
  cases env with
  | mk b cr lm tv =>
    cases b with
    | false => exact Bool.noConfusion hex
    | true =>
      cases cr with
      | error e => exact Except.noConfusion hc
      | ok txt =>
        have htxt : txt = modText := by injection hc
        subst htxt
        simp only [readConfigFile] at hv ⊢
        rw [hv]
        exact ⟨rfl, rfl⟩

theorem readConfigFile_version_warning_witness :
    ((readConfigFile sampleEnv).result = .ok sampleCfg ∧
     (readConfigFile sampleEnv).versionWarning = some ("3.9.0", "4.0.0")) ∧
    (readConfigFile equalEnv).versionWarning = none := by
  have h1 := readConfigFile_version_warning sampleEnv "bundled" rfl rfl (by rfl)
  have h2 := readConfigFile_version_warning equalEnv "bundled" rfl rfl (by rfl)
  exact ⟨⟨h1.1, by rw [h1.2]; rfl⟩, by rw [h2.2]; rfl⟩

/-- C9 counterexample: on the candidate values `null`, `undefined`, or an
object not inheriting `Object.prototype`, the validator itself raises a
TypeError instead of reporting a structured diagnostic — refuting the claim
that structural violations are always reported as `MissingKeyError`,
`MissingComponentError` or `SchemaValidationError` for every candidate
value. -/
theorem isValidConfig_fault_counterexample :
    isValidConfig .vnull = .error .typeError ∧
    isValidConfig .vundefined = .error .typeError ∧
    isValidConfig (.vobj false []) = .error .typeError :=
  ⟨rfl, rfl, rfl⟩

/-- C9 (amended): for every candidate on which `.hasOwnProperty` is
callable (not `null`, not `undefined`, not a prototype-less object) and
whose `components` value is likewise callable whenever the three top-level
keys are present, the validator never raises: it returns a verdict, i.e.
either acceptance or one of the structured diagnostics. -/
theorem isValidConfig_diagnostics_amended (cfg : JVal)
    (h1 : supportsOwnLookup cfg = true)
    (h2 : checkKeys cfg requiredKeys = .ok none →
          supportsOwnLookup (getField cfg "components") = true) :
    ∃ d, isValidConfig cfg = .ok d := by
  obtain ⟨r1, hr1⟩ := checkKeys_total h1 requiredKeys
  cases r1 with
  | some k => exact ⟨.missingKey k, by simp [isValidConfig, hr1]⟩
  | none =>
    obtain ⟨r2, hr2⟩ := checkKeys_total (h2 hr1) requiredComponents
    cases r2 with
    | some k => exact ⟨.missingComponent k, by simp [isValidConfig, hr1, hr2]⟩
    | none =>
      cases hs : configSchemaTry (getField cfg "configuration") with
      | some m => exact ⟨.schemaError m, by simp [isValidConfig, hr1, hr2, hs]⟩
      | none => exact ⟨.valid, by simp [isValidConfig, hr1, hr2, hs]⟩

theorem isValidConfig_diagnostics_amended_witness :
    ∃ d, isValidConfig sampleCfg = .ok d :=
  isValidConfig_diagnostics_amended sampleCfg rfl (fun _ => rfl)

/-! Helper lemmas about the templater. -/

lemma isPfx_iff (pat : List Char) : ∀ s : List Char, isPfx pat s = true ↔ pat <+: s := by
  induction pat with
  | nil =>
    intro s
    constructor
    · intro _; exact ⟨s, rfl⟩
    · intro _; rfl
  | cons a ta ih =>
    intro s
    cases s with
    | nil =>
      constructor
      · intro h; exact absurd h (by simp [isPfx])
      · rintro ⟨t, ht⟩; exact absurd ht (by simp)
    | cons b tb =>
      constructor
      · intro h
        simp only [isPfx, Bool.and_eq_true, beq_iff_eq] at h
        obtain ⟨t, ht⟩ := (ih tb).mp h.2
        exact ⟨t, by rw [h.1, List.cons_append, ht]⟩
      · rintro ⟨t, ht⟩
        simp only [List.cons_append, List.cons.injEq] at ht
        simp only [isPfx, Bool.and_eq_true, beq_iff_eq]
        exact ⟨ht.1, (ih tb).mpr ⟨t, ht.2⟩⟩

lemma firstMatch_none_iff (pat : List Char) :
    ∀ s : List Char, firstMatch pat s = none ↔ ¬ pat <:+: s := by
  intro s
  induction s with
  | nil =>
    cases pat with
    | nil =>
      constructor
      · intro h
        simp [show firstMatch ([] : List Char) [] = some 0 from rfl] at h
      · intro h
        exact absurd ⟨[], [], rfl⟩ h
    | cons a ta =>
      constructor
      · intro _
        rintro ⟨u, v, huv⟩
        simp at huv
      · intro _
        rfl
  | cons c cs ih =>
    by_cases hp : isPfx pat (c :: cs) = true
    · have hfm : firstMatch pat (c :: cs) = some 0 := by
        rw [firstMatch, if_pos hp]
      constructor
      · intro h
        simp [hfm] at h
      · intro h
        obtain ⟨t, ht⟩ := (isPfx_iff pat (c :: cs)).mp hp
        exact absurd ⟨[], t, by simpa using ht⟩ h
    · have hnp : ¬ pat <+: (c :: cs) := fun hx => hp ((isPfx_iff pat (c :: cs)).mpr hx)
      have hfm : firstMatch pat (c :: cs) = (firstMatch pat cs).map (fun i => i + 1) := by
        rw [firstMatch, if_neg hp]
      have hstep : pat <:+: (c :: cs) ↔ pat <:+: cs := by
        constructor
        · rintro ⟨u, v, huv⟩
          cases u with
          | nil => exact absurd ⟨v, by simpa using huv⟩ hnp
          | cons x xs =>
            have h2 : xs ++ pat ++ v = cs := by
              have h3 := huv
              simp only [List.cons_append, List.cons.injEq] at h3
              exact h3.2
            exact ⟨xs, v, h2⟩
        · rintro ⟨u, v, huv⟩
          exact ⟨c :: u, v, by rw [← huv]; rfl⟩
      rw [hfm, hstep]
      constructor
      · intro h
        have hnone : firstMatch pat cs = none := by
          cases hx : firstMatch pat cs with
          | none => rfl
          | some i => rw [hx] at h; simp at h
        exact ih.mp hnone
      · intro h
        rw [ih.mpr h]
        rfl

lemma firstMatch_some (pat : List Char) :
    ∀ (s : List Char) (i : Nat), firstMatch pat s = some i →
      pat <+: s.drop i ∧ ∀ j, j < i → ¬ pat <+: s.drop j := by
  intro s
  induction s with
  | nil =>
    intro i h
    cases pat with
    | nil =>
      rw [show firstMatch ([] : List Char) [] = some 0 from rfl] at h
      injection h with h2
      subst h2
      exact ⟨⟨[], rfl⟩, fun j hj => absurd hj (Nat.not_lt_zero j)⟩
    | cons a ta =>
      rw [show firstMatch (a :: ta) [] = none from rfl] at h
      exact Option.noConfusion h
  | cons c cs ih =>
    intro i h
    by_cases hp : isPfx pat (c :: cs) = true
    · rw [firstMatch, if_pos hp] at h
      injection h with h2
      subst h2
      exact ⟨(isPfx_iff pat (c :: cs)).mp hp, fun j hj => absurd hj (Nat.not_lt_zero j)⟩
    · have hnp : ¬ pat <+: (c :: cs) := fun hx => hp ((isPfx_iff pat (c :: cs)).mpr hx)
      rw [firstMatch, if_neg hp] at h
      cases hx : firstMatch pat cs with
      | none => rw [hx] at h; simp at h
      | some i2 =>
        rw [hx] at h
        simp at h
        obtain ⟨h1, h2⟩ := ih i2 hx
        subst h
        refine ⟨by simpa using h1, ?_⟩
        intro j hj
        cases j with
        | zero => simpa using hnp
        | succ j2 => intro hp2; exact h2 j2 (by omega) (by simpa using hp2)

lemma getSubstitution_no_dollar (m b a : List Char) :
    ∀ rep : List Char, '$' ∉ rep → getSubstitution m b a rep = rep := by
  intro rep
  induction rep with
  | nil => intro _; rfl
  | cons c cs ih =>
    intro h
    have hc : c ≠ '$' := by
      intro he
      subst he
      exact h (List.mem_cons_self _ _)
    have hcs : '$' ∉ cs := fun hm => h (List.mem_cons_of_mem c hm)
    cases cs with
    | nil => rfl
    | cons d rest =>
      rw [show getSubstitution m b a (c :: d :: rest)
            = c :: getSubstitution m b a (d :: rest) from by
          rw [getSubstitution, if_neg hc]]
      rw [ih hcs]

lemma replaceFirstL_not_occurs (s pat rep : List Char) (h : ¬ pat <:+: s) :
    replaceFirstL s pat rep = s := by
  unfold replaceFirstL
  rw [(firstMatch_none_iff pat s).mpr h]

lemma replaceFirstL_first_occurrence (s pat rep : List Char) (h : pat <:+: s) :
    ∃ i, pat <+: s.drop i ∧ (∀ j, j < i → ¬ pat <+: s.drop j) ∧
      replaceFirstL s pat rep
        = s.take i ++ getSubstitution pat (s.take i) (s.drop (i + pat.length)) rep
          ++ s.drop (i + pat.length) := by
  cases hx : firstMatch pat s with
  | none => exact absurd h ((firstMatch_none_iff pat s).mp hx)
  | some i =>
    obtain ⟨h1, h2⟩ := firstMatch_some pat s i hx
    refine ⟨i, h1, h2, ?_⟩
    unfold replaceFirstL
    rw [hx]

lemma templateQuartzFolder_no_tokens (seed : List (String × String)) :
    ∀ text : String, (∀ kv ∈ seed, ¬ (tokenOf kv.1).data <:+: text.data) →
      templateQuartzFolder seed text = text := by
  induction seed with
  | nil => intro text _; rfl
  | cons kv rest ih =>
    intro text h
    have h1 : replaceFirst text (tokenOf kv.1) kv.2 = text := by
      unfold replaceFirst
      rw [replaceFirstL_not_occurs _ _ _ (h kv (List.mem_cons_self kv rest))]
    calc templateQuartzFolder (kv :: rest) text
        = templateQuartzFolder rest (replaceFirst text (tokenOf kv.1) kv.2) := rfl
      _ = templateQuartzFolder rest text := by rw [h1]
      _ = text := ih text (fun kv2 hkv2 => h kv2 (List.mem_cons_of_mem _ hkv2))

/-- C8 counterexample: JS `String.prototype.replace` processes `$`-patterns
in the replacement even for a string search pattern, so a seed value is
not always inserted verbatim: with seed `name` bound to the value `$$` on
the template `\x7b\x7bname\x7d\x7d`, the templater produces `$` — not the
key's value `$$` — and a value `X$&Y` re-inserts the matched token. -/
theorem templateQuartzFolder_dollar_counterexample :
    templateQuartzFolder [("name", "$$")] "\x7b\x7bname\x7d\x7d" = "$" ∧
    ("$" : String) ≠ "$$" ∧
    replaceFirst "\x7b\x7bname\x7d\x7d" (tokenOf "name") "X$&Y"
      = "X\x7b\x7bname\x7d\x7dY" :=
  ⟨by rfl, by decide, by rfl⟩

/-- C8 (amended): for each seed key/value pair the templater replaces
exactly the first (least-index, not all) occurrence of the literal token
`\x7b\x7bkey\x7d\x7d` in the text, inserting the value processed by the JS
replacement rules (`$$`, `$&`, `$`-backtick and `$`-apostrophe substitute;
a string pattern has no captures, so everything else — in particular any
value without `$` — is inserted verbatim); a pair whose token does not
occur in the text is silently ignored (no error), and a template whose
tokens match no seed key is left verbatim by the whole loop. -/
theorem templateQuartzFolder_placeholder_semantics :
    (∀ (s pat rep : List Char), ¬ pat <:+: s → replaceFirstL s pat rep = s) ∧
    (∀ (s pat rep : List Char), pat <:+: s →
       ∃ i, pat <+: s.drop i ∧ (∀ j, j < i → ¬ pat <+: s.drop j) ∧
         replaceFirstL s pat rep
           = s.take i ++ getSubstitution pat (s.take i) (s.drop (i + pat.length)) rep
             ++ s.drop (i + pat.length)) ∧
    (∀ (s pat rep : List Char), '$' ∉ rep → pat <:+: s →
       ∃ i, pat <+: s.drop i ∧ (∀ j, j < i → ¬ pat <+: s.drop j) ∧
         replaceFirstL s pat rep = s.take i ++ rep ++ s.drop (i + pat.length)) ∧
    (∀ (seed : List (String × String)) (text : String),
       (∀ kv ∈ seed, ¬ (tokenOf kv.1).data <:+: text.data) →
       templateQuartzFolder seed text = text) := by
  refine ⟨replaceFirstL_not_occurs, replaceFirstL_first_occurrence, ?_,
          templateQuartzFolder_no_tokens⟩
  intro s pat rep hd h
  obtain ⟨i, h1, h2, h3⟩ := replaceFirstL_first_occurrence s pat rep h
  exact ⟨i, h1, h2, by rw [h3, getSubstitution_no_dollar _ _ _ rep hd]⟩

theorem templateQuartzFolder_placeholder_semantics_witness :
    replaceFirstL "ab".data "xy".data "Z".data = "ab".data ∧
    (∃ i, "\x7b\x7bname\x7d\x7d".data <+: "ab\x7b\x7bname\x7d\x7dcd".data.drop i ∧
       (∀ j, j < i → ¬ "\x7b\x7bname\x7d\x7d".data <+: "ab\x7b\x7bname\x7d\x7dcd".data.drop j) ∧
       replaceFirstL "ab\x7b\x7bname\x7d\x7dcd".data "\x7b\x7bname\x7d\x7d".data "$&X".data
         = "ab\x7b\x7bname\x7d\x7dcd".data.take i
           ++ getSubstitution "\x7b\x7bname\x7d\x7d".data ("ab\x7b\x7bname\x7d\x7dcd".data.take i)
             ("ab\x7b\x7bname\x7d\x7dcd".data.drop (i + "\x7b\x7bname\x7d\x7d".data.length)) "$&X".data
           ++ "ab\x7b\x7bname\x7d\x7dcd".data.drop (i + "\x7b\x7bname\x7d\x7d".data.length)) ∧
    (∃ i, "\x7b\x7bname\x7d\x7d".data <+: "ab\x7b\x7bname\x7d\x7dcd\x7b\x7bname\x7d\x7d".data.drop i ∧
       (∀ j, j < i → ¬ "\x7b\x7bname\x7d\x7d".data <+: "ab\x7b\x7bname\x7d\x7dcd\x7b\x7bname\x7d\x7d".data.drop j) ∧
       replaceFirstL "ab\x7b\x7bname\x7d\x7dcd\x7b\x7bname\x7d\x7d".data "\x7b\x7bname\x7d\x7d".data "X".data
         = "ab\x7b\x7bname\x7d\x7dcd\x7b\x7bname\x7d\x7d".data.take i ++ "X".data
           ++ "ab\x7b\x7bname\x7d\x7dcd\x7b\x7bname\x7d\x7d".data.drop (i + "\x7b\x7bname\x7d\x7d".data.length)) ∧
    templateQuartzFolder [("name", "X")] "hello" = "hello" :=
  ⟨templateQuartzFolder_placeholder_semantics.1 _ _ _ (by decide),
   templateQuartzFolder_placeholder_semantics.2.1 _ _ _ (by decide),
   templateQuartzFolder_placeholder_semantics.2.2.1 _ _ _ (by decide) (by decide),
   templateQuartzFolder_placeholder_semantics.2.2.2 _ _ (by decide)⟩

/-- C10: substitution is sequential, each pass operating on the previous
pass's output, so a token of a later seed key occurring inside the value
substituted for an earlier key is itself replaced: with seed entries
`quartzVersion ↦ "X\x7b\x7bname\x7d\x7dY"`, `name ↦ "Z"` and template
`"\x7b\x7bquartzVersion\x7d\x7d"`, the loop yields `"XZY"`, while
independent per-token replacement on the original template (where only the
`quartzVersion` token occurs) would yield `"X\x7b\x7bname\x7d\x7dY"`. -/
theorem templateQuartzFolder_sequential_substitution :
    (∀ (k v : String) (rest : List (String × String)) (text : String),
        templateQuartzFolder ((k, v) :: rest) text =
          templateQuartzFolder rest (replaceFirst text (tokenOf k) v)) ∧
    templateQuartzFolder [("quartzVersion", "X\x7b\x7bname\x7d\x7dY"), ("name", "Z")]
        "\x7b\x7bquartzVersion\x7d\x7d" = "XZY" ∧
    replaceFirst "\x7b\x7bquartzVersion\x7d\x7d" (tokenOf "quartzVersion") "X\x7b\x7bname\x7d\x7dY"
        = "X\x7b\x7bname\x7d\x7dY" ∧
    replaceFirst "\x7b\x7bquartzVersion\x7d\x7d" (tokenOf "name") "Z"
        = "\x7b\x7bquartzVersion\x7d\x7d" ∧
    ("XZY" : String) ≠ "X\x7b\x7bname\x7d\x7dY" :=
  ⟨fun k v rest text => rfl, by rfl, by rfl, by rfl, by decide⟩

/-! Helper lemmas about the path model. -/

lemma splitSlash_cons_slash (x : List Char) : splitSlash ('/' :: x) = [] :: splitSlash x := rfl

lemma splitSlash_cons_ne (c : Char) (x : List Char) (h : c ≠ '/') :
    splitSlash (c :: x) =
      (match splitSlash x with
       | [] => [[c]]
       | s :: rest => (c :: s) :: rest) := by
  rw [splitSlash]
  rw [if_neg h]

lemma splitSlash_ne_nil : ∀ l : List Char, splitSlash l ≠ [] := by
  intro l
  cases l with
  | nil => simp [splitSlash]
  | cons c cs =>
    by_cases h : c = '/'
    · subst h
      rw [splitSlash_cons_slash]
      simp
    · rw [splitSlash_cons_ne c cs h]
      cases hs : splitSlash cs with
      | nil => simp
      | cons s rest => simp

lemma splitSlash_append (a b : List Char) :
    splitSlash (a ++ '/' :: b) = splitSlash a ++ splitSlash b := by
  induction a with
  | nil =>
    rw [List.nil_append, splitSlash_cons_slash]
    rfl
  | cons c cs ih =>
    by_cases h : c = '/'
    · subst h
      rw [List.cons_append, splitSlash_cons_slash, ih, splitSlash_cons_slash]
      rfl
    · rw [List.cons_append, splitSlash_cons_ne c _ h, splitSlash_cons_ne c cs h, ih]
      cases hs : splitSlash cs with
      | nil => exact absurd hs (splitSlash_ne_nil cs)
      | cons s rest => rfl

lemma splitSlash_no_slash : ∀ l : List Char, '/' ∉ l → splitSlash l = [l] := by
  intro l
  induction l with
  | nil => intro _; rfl
  | cons c cs ih =>
    intro h
    have hc : c ≠ '/' := by
      intro he
      subst he
      exact h (List.mem_cons_self _ _)
    rw [splitSlash_cons_ne c cs hc, ih (fun hm => h (List.mem_cons_of_mem c hm))]

lemma splitSlash_no_slash_mem : ∀ (l : List Char), ∀ x ∈ splitSlash l, '/' ∉ x := by
  intro l
  induction l with
  | nil =>
    intro x hx
    simp [splitSlash] at hx
    subst hx
    simp
  | cons c cs ih =>
    intro x hx
    by_cases h : c = '/'
    · subst h
      rw [splitSlash_cons_slash] at hx
      rcases List.mem_cons.mp hx with rfl | hmem
      · simp
      · exact ih x hmem
    · rw [splitSlash_cons_ne c cs h] at hx
      cases hs : splitSlash cs with
      | nil => exact absurd hs (splitSlash_ne_nil cs)
      | cons s rest =>
        rw [hs] at hx
        rcases List.mem_cons.mp hx with rfl | hmem
        · intro hin
          rcases List.mem_cons.mp hin with he | hin2
          · exact h he.symm
          · exact ih s (by rw [hs]; exact List.mem_cons_self s rest) hin2
        · exact ih x (by rw [hs]; exact List.mem_cons_of_mem s hmem)

lemma segsL_append (a b : List Char) : segsL (a ++ '/' :: b) = segsL a ++ segsL b := by
  unfold segsL
  rw [splitSlash_append, List.filter_append]

lemma segsL_slash_cons (b : List Char) : segsL ('/' :: b) = segsL b := by
  unfold segsL
  rw [splitSlash_cons_slash]
  simp

lemma segsL_single (l : List Char) (h1 : l ≠ []) (h2 : '/' ∉ l) : segsL l = [l] := by
  unfold segsL
  rw [splitSlash_no_slash l h2]
  simp [h1]

lemma segsL_segOK (l : List Char) : ∀ x ∈ segsL l, SegOK x := by
  intro x hx
  unfold segsL at hx
  rw [List.mem_filter] at hx
  exact ⟨by simpa using hx.2, splitSlash_no_slash_mem l x hx.1⟩

lemma normStep_push (a : Bool) (acc : List (List Char)) (q : List Char)
    (h1 : q ≠ ['.']) (h2 : q ≠ ['.', '.']) : normStep a acc q = q :: acc := by
  unfold normStep
  rw [if_neg h1, if_neg h2]

lemma normSegs_append_single (a : Bool) (l : List (List Char)) (q : List Char)
    (h1 : q ≠ ['.']) (h2 : q ≠ ['.', '.']) :
    normSegs a (l ++ [q]) = normSegs a l ++ [q] := by
  unfold normSegs
  rw [List.foldl_append]
  simp only [List.foldl_cons, List.foldl_nil]
  rw [normStep_push a _ q h1 h2]
  simp

lemma normStep_segOK (a : Bool) (acc : List (List Char)) (s : List Char)
    (hacc : ∀ x ∈ acc, SegOK x) (hs : SegOK s) :
    ∀ x ∈ normStep a acc s, SegOK x := by
  intro x hx
  unfold normStep at hx
  by_cases h1 : s = ['.']
  · rw [if_pos h1] at hx
    exact hacc x hx
  · rw [if_neg h1] at hx
    by_cases h2 : s = ['.', '.']
    · rw [if_pos h2] at hx
      cases acc with
      | nil =>
        cases a with
        | true =>
          rcases List.mem_singleton.mp hx with rfl
          exact hs
        | false => simp at hx
      | cons a1 rest =>
        dsimp only at hx
        by_cases h3 : a1 = ['.', '.']
        · rw [if_pos h3] at hx
          cases a with
          | true =>
            rcases List.mem_cons.mp hx with rfl | hmem
            · exact hs
            · exact hacc x hmem
          | false => exact hacc x (List.mem_cons_of_mem a1 hx)
        · rw [if_neg h3] at hx
          exact hacc x (List.mem_cons_of_mem a1 hx)
    · rw [if_neg h2] at hx
      rcases List.mem_cons.mp hx with rfl | hmem
      · exact hs
      · exact hacc x hmem

lemma foldl_normStep_segOK (a : Bool) :
    ∀ (l : List (List Char)) (acc : List (List Char)),
      (∀ x ∈ acc, SegOK x) → (∀ x ∈ l, SegOK x) →
      ∀ x ∈ l.foldl (normStep a) acc, SegOK x := by
  intro l
  induction l with
  | nil => intro acc hacc _ x hx; exact hacc x hx
  | cons s rest ih =>
    intro acc hacc hl x hx
    simp only [List.foldl_cons] at hx
    exact ih (normStep a acc s)
      (normStep_segOK a acc s hacc (hl s (List.mem_cons_self s rest)))
      (fun y hy => hl y (List.mem_cons_of_mem _ hy)) x hx

lemma normSegs_segOK (a : Bool) (l : List (List Char)) (h : ∀ x ∈ l, SegOK x) :
    ∀ x ∈ normSegs a l, SegOK x := by
  intro x hx
  unfold normSegs at hx
  rw [List.mem_reverse] at hx
  exact foldl_normStep_segOK a l [] (by simp) h x hx

lemma segsL_sepJoinL : ∀ m : List (List Char), (∀ x ∈ m, SegOK x) → segsL (sepJoinL m) = m := by
  intro m
  induction m with
  | nil => intro _; rfl
  | cons s rest ih =>
    intro h
    cases rest with
    | nil =>
      have hs := h s (List.mem_cons_self s [])
      exact segsL_single s hs.1 hs.2
    | cons t rest2 =>
      have hs := h s (List.mem_cons_self _ _)
      rw [show sepJoinL (s :: t :: rest2) = s ++ '/' :: sepJoinL (t :: rest2) from rfl]
      rw [segsL_append, segsL_single s hs.1 hs.2,
          ih (fun y hy => h y (List.mem_cons_of_mem _ hy))]
      rfl

lemma sepJoinL_concat : ∀ (l : List (List Char)) (x : List Char), l ≠ [] →
    sepJoinL (l ++ [x]) = sepJoinL l ++ '/' :: x := by
  intro l
  induction l with
  | nil => intro x h; exact absurd rfl h
  | cons s rest ih =>
    intro x _
    cases rest with
    | nil => rfl
    | cons t rest2 =>
      have h1 : sepJoinL ((s :: t :: rest2) ++ [x]) = s ++ '/' :: sepJoinL ((t :: rest2) ++ [x]) := rfl
      rw [h1, ih x (by simp)]
      show s ++ '/' :: (sepJoinL (t :: rest2) ++ '/' :: x)
          = (s ++ '/' :: sepJoinL (t :: rest2)) ++ '/' :: x
      simp

lemma isAbsL_append (a b : List Char) (h : a ≠ []) : isAbsL (a ++ b) = isAbsL a := by
  cases a with
  | nil => exact absurd rfl h
  | cons c cs => rfl

lemma isAbsL_sepJoinL (m : List (List Char)) (hne : m ≠ []) (h : ∀ x ∈ m, SegOK x) :
    isAbsL (sepJoinL m) = false := by
  cases m with
  | nil => exact absurd rfl hne
  | cons s rest =>
    have hs := h s (List.mem_cons_self _ _)
    have hhead : ∀ t : List Char, isAbsL (s ++ t) = false := by
      intro t
      cases s with
      | nil => exact absurd rfl hs.1
      | cons c cs2 =>
        have hc : c ≠ '/' := by
          intro he
          subst he
          exact hs.2 (List.mem_cons_self _ _)
        show (c == '/') = false
        simpa using hc
    cases rest with
    | nil =>
      have h2 := hhead []
      rwa [List.append_nil] at h2
    | cons t rest2 => exact hhead ('/' :: sepJoinL (t :: rest2))

lemma pathNormalize_mk (l : List Char) (hl : l ≠ []) :
    pathNormalize ⟨l⟩ =
      (if isAbsL l then (⟨'/' :: sepJoinL (normSegs (!isAbsL l) (segsL l))⟩ : String)
       else if normSegs (!isAbsL l) (segsL l) = [] then "."
       else ⟨sepJoinL (normSegs (!isAbsL l) (segsL l))⟩) := by
  unfold pathNormalize
  rw [if_neg (fun h => hl (congrArg String.data h))]

lemma pathResolve_eq (cwd p : String) :
    pathResolve cwd p =
      ⟨'/' :: sepJoinL (normSegs false (segsL
        (if isAbsL p.data then p else cwd ++ "/" ++ p).data))⟩ := rfl

lemma resolve_tail (P T : List (List Char)) (hP : P = T ++ ["quartz".data]) :
    (⟨'/' :: sepJoinL (normSegs false (P ++ ["quartz.config.js".data]))⟩ : String)
      = ⟨'/' :: sepJoinL (normSegs false P)⟩ ++ "/quartz.config.js" := by
  have h1 : normSegs false P = normSegs false T ++ ["quartz".data] := by
    rw [hP, normSegs_append_single _ _ _ (by decide) (by decide)]
  have h2 : normSegs false (P ++ ["quartz.config.js".data])
      = normSegs false P ++ ["quartz.config.js".data] :=
    normSegs_append_single _ _ _ (by decide) (by decide)
  have h3 : normSegs false P ≠ [] := by rw [h1]; simp
  rw [h2, sepJoinL_concat _ _ h3]
  rw [show ('/' :: (sepJoinL (normSegs false P) ++ '/' :: "quartz.config.js".data))
        = ('/' :: sepJoinL (normSegs false P)) ++ '/' :: "quartz.config.js".data from by simp]
  rfl

lemma pathResolve_abs_mk (cwd : String) (X : List (List Char)) (hX : ∀ x ∈ X, SegOK x) :
    pathResolve cwd ⟨'/' :: sepJoinL X⟩ = ⟨'/' :: sepJoinL (normSegs false X)⟩ := by
  show (⟨'/' :: sepJoinL (normSegs false (segsL ('/' :: sepJoinL X)))⟩ : String)
      = ⟨'/' :: sepJoinL (normSegs false X)⟩
  rw [segsL_slash_cons, segsL_sepJoinL X hX]

lemma pathResolve_rel_mk (cwd : String) (X : List (List Char)) (hne : X ≠ [])
    (hX : ∀ x ∈ X, SegOK x) :
    pathResolve cwd ⟨sepJoinL X⟩
      = ⟨'/' :: sepJoinL (normSegs false (segsL cwd.data ++ X))⟩ := by
  have habs : isAbsL (⟨sepJoinL X⟩ : String).data = false := isAbsL_sepJoinL X hne hX
  rw [pathResolve_eq, habs]
  rw [if_neg (by simp)]
  have hfull : (cwd ++ "/" ++ (⟨sepJoinL X⟩ : String)).data = cwd.data ++ '/' :: sepJoinL X := by
    show (cwd.data ++ ['/']) ++ sepJoinL X = cwd.data ++ '/' :: sepJoinL X
    rw [List.append_assoc]
    rfl
  rw [hfull, segsL_append, segsL_sepJoinL X hX]

lemma resolve_normalize_concat (cwd : String) (jd : List Char) (S : List (List Char))
    (hS : segsL jd = S ++ ["quartz".data]) (hne : jd ≠ []) :
    pathResolve cwd (pathNormalize ⟨jd ++ '/' :: "quartz.config.js".data⟩)
      = pathResolve cwd (pathNormalize ⟨jd⟩) ++ "/quartz.config.js" := by
  have hne3 : jd ++ '/' :: "quartz.config.js".data ≠ [] := by simp
  have habs3 : isAbsL (jd ++ '/' :: "quartz.config.js".data) = isAbsL jd :=
    isAbsL_append jd _ hne
  have hseg3 : segsL (jd ++ '/' :: "quartz.config.js".data)
      = segsL jd ++ ["quartz.config.js".data] := by
    rw [segsL_append,
        show segsL "quartz.config.js".data = ["quartz.config.js".data] from by decide]
  have hm2 : ∀ a : Bool, normSegs a (segsL jd) = normSegs a S ++ ["quartz".data] := fun a => by
    rw [hS, normSegs_append_single _ _ _ (by decide) (by decide)]
  have hm2ne : ∀ a : Bool, normSegs a (segsL jd) ≠ [] := fun a => by rw [hm2 a]; simp
  have hm2ok : ∀ a : Bool, ∀ x ∈ normSegs a (segsL jd), SegOK x := fun a =>
    normSegs_segOK a _ (segsL_segOK jd)
  have hfsOK : SegOK "quartz.config.js".data := ⟨by decide, by decide⟩
  have hall : ∀ a : Bool, ∀ x ∈ normSegs a (segsL jd) ++ ["quartz.config.js".data], SegOK x := by
    intro a x hx
    rcases List.mem_append.mp hx with h1 | h2
    · exact hm2ok a x h1
    · rw [List.mem_singleton] at h2
      subst h2
      exact hfsOK
  have hm3 : ∀ a : Bool, normSegs a (segsL (jd ++ '/' :: "quartz.config.js".data))
      = normSegs a (segsL jd) ++ ["quartz.config.js".data] := fun a => by
    rw [hseg3, normSegs_append_single _ _ _ (by decide) (by decide)]
  have hn2 := pathNormalize_mk jd hne
  have hn3 := pathNormalize_mk (jd ++ '/' :: "quartz.config.js".data) hne3
  rw [habs3, hm3 (!isAbsL jd)] at hn3
  cases hA : isAbsL jd with
  | false =>
    rw [hA] at hn2 hn3
    rw [show ((!false) : Bool) = true from rfl] at hn2 hn3
    rw [if_neg (by decide : ¬ (false = true)), if_neg (hm2ne true)] at hn2
    rw [if_neg (by decide : ¬ (false = true)), if_neg (by simp)] at hn3
    rw [hn2, hn3, pathResolve_rel_mk cwd _ (by simp) (hall true),
        pathResolve_rel_mk cwd _ (hm2ne true) (hm2ok true)]
    rw [show segsL cwd.data ++ (normSegs true (segsL jd) ++ ["quartz.config.js".data])
          = (segsL cwd.data ++ normSegs true (segsL jd)) ++ ["quartz.config.js".data] from
        (List.append_assoc _ _ _).symm]
    exact resolve_tail (segsL cwd.data ++ normSegs true (segsL jd))
      (segsL cwd.data ++ normSegs true S) (by rw [hm2 true, ← List.append_assoc])
  | true =>
    rw [hA] at hn2 hn3
    rw [show ((!true) : Bool) = false from rfl] at hn2 hn3
    rw [if_pos (rfl : (true : Bool) = true)] at hn2
    rw [if_pos (rfl : (true : Bool) = true)] at hn3
    rw [hn2, hn3, pathResolve_abs_mk cwd _ (hall false), pathResolve_abs_mk cwd _ (hm2ok false)]
    exact resolve_tail (normSegs false (segsL jd)) (normSegs false S) (hm2 false)

/-- C2: for every process working directory and every project root, the
configuration file path is the configuration directory path with
`/quartz.config.js` appended:
`getConfigFilePath(r) = getQuartzPath(r) ++ "/quartz.config.js"`.  Both are
total functions of the root and the working directory (pure, never
failing). -/
theorem getConfigFilePath_eq_quartzPath (cwd directory : String) :
    getConfigFilePath cwd directory = getQuartzPath cwd directory ++ "/quartz.config.js" := by
  unfold getConfigFilePath getQuartzPath
  by_cases hd : directory = ""
  · subst hd
    have e3 : pathJoin ["", QUARTZ, QUARTZ_CONFIG_NAME]
        = pathNormalize ⟨"quartz".data ++ '/' :: "quartz.config.js".data⟩ := rfl
    have e2 : pathJoin ["", QUARTZ] = pathNormalize ⟨"quartz".data⟩ := rfl
    rw [e3, e2]
    exact resolve_normalize_concat cwd "quartz".data [] (by decide) (by decide)
  · have hf2 : [directory, QUARTZ].filter (fun p => decide (p ≠ "")) = [directory, QUARTZ] := by
      simp [QUARTZ, hd]
    have hf3 : [directory, QUARTZ, QUARTZ_CONFIG_NAME].filter (fun p => decide (p ≠ ""))
        = [directory, QUARTZ, QUARTZ_CONFIG_NAME] := by
      simp [QUARTZ, QUARTZ_CONFIG_NAME, hd]
    have hdata2 : sepJoinStr [directory, QUARTZ]
        = (⟨directory.data ++ '/' :: "quartz".data⟩ : String) := by
      show (⟨(directory.data ++ ['/']) ++ "quartz".data⟩ : String)
          = ⟨directory.data ++ '/' :: "quartz".data⟩
      exact congrArg String.mk (by rw [List.append_assoc]; rfl)
    have hdata3 : sepJoinStr [directory, QUARTZ, QUARTZ_CONFIG_NAME]
        = (⟨(directory.data ++ '/' :: "quartz".data) ++ '/' :: "quartz.config.js".data⟩ : String) := by
      show (⟨(directory.data ++ ['/']) ++ (("quartz".data ++ ['/']) ++ "quartz.config.js".data)⟩ : String)
          = ⟨(directory.data ++ '/' :: "quartz".data) ++ '/' :: "quartz.config.js".data⟩
      exact congrArg String.mk (by simp)
    have e2 : pathJoin [directory, QUARTZ]
        = pathNormalize ⟨directory.data ++ '/' :: "quartz".data⟩ := by
      show (if [directory, QUARTZ].filter (fun p => decide (p ≠ "")) = [] then "."
            else pathNormalize (sepJoinStr ([directory, QUARTZ].filter (fun p => decide (p ≠ "")))))
          = pathNormalize ⟨directory.data ++ '/' :: "quartz".data⟩
      rw [hf2, if_neg (by simp), hdata2]
    have e3 : pathJoin [directory, QUARTZ, QUARTZ_CONFIG_NAME]
        = pathNormalize ⟨(directory.data ++ '/' :: "quartz".data) ++ '/' :: "quartz.config.js".data⟩ := by
      show (if [directory, QUARTZ, QUARTZ_CONFIG_NAME].filter (fun p => decide (p ≠ "")) = [] then "."
            else pathNormalize (sepJoinStr
              ([directory, QUARTZ, QUARTZ_CONFIG_NAME].filter (fun p => decide (p ≠ "")))))
          = pathNormalize ⟨(directory.data ++ '/' :: "quartz".data) ++ '/' :: "quartz.config.js".data⟩
      rw [hf3, if_neg (by simp), hdata3]
    rw [e2, e3]
    exact resolve_normalize_concat cwd (directory.data ++ '/' :: "quartz".data)
      (segsL directory.data)
      (by rw [segsL_append, show segsL "quartz".data = ["quartz".data] from by decide])
      (by simp)
